import Mathlib

/-!
Verification of the `pytrees` repository's natural-language specification
against its source code.

The repository implements a generic multi-way tree: a `Node` holding an
identity value, a parent back-reference and an ordered list of children,
plus a `Tree` wrapper.  Two implementations matter for the claims:

* `src/experimental/simplenode.py` — `Node` with `add_child`,
  `add_children`, `remove_child`, the four traversal generators
  (`preorder`, `postorder`, `levelorder`, `upwards`, each taking an
  optional callback), `lowest_common_ancestor`, `get_path`,
  `get_distance`, `from_dict` / `to_dict`.
* `src/pytrees/node.py` — `Node` whose `add_child` / `remove_child`
  only mutate the children list (the parent field is untouched), whose
  comparison operators are written over the *bound method objects*
  `self.get_depth` / `other.get_depth`, whose `get_ancestors` excludes
  the node itself, and whose `inorder_traversal` indexes `children[1]`
  whenever the node has children.  `src/pytrees/tree.py` wraps a root.

Mutable nodes are embedded as a heap: a list of `NodeData` records
indexed by node id (Python object identity becomes the id).  Mutating
methods return the new heap together with an optional raised exception
(`none` = normal return); a raise happens exactly where the Python
`raise` statement sits, so state mutated before a raise stays mutated.
Pure tree-shaped values (used by the traversal and dict-conversion
claims, which never follow parent pointers) are embedded as the nested
inductive `SimpleTree`.
-/

/-- Python exception kinds raised by the modelled code. -/
inductive PyErr where
  | valueError
  | indexError
  | typeError
  | attributeError
deriving DecidableEq, Repr

/-- The mutable state of one Python `Node` object: `_parent`,
`_identity`, `_children` (a list of node ids), `_max_children`.
Identities are modelled as `Option Int` (`none` = Python `None`). -/
structure NodeData where
  parent : Option Nat
  identity : Option Int
  children : List Nat
  maxChildren : Option Nat
deriving DecidableEq, Repr

instance : Inhabited NodeData := ⟨⟨none, none, [], none⟩⟩

/-- A heap of node objects; a node id is an index into the list. -/
abbrev Heap := List NodeData

/-- Field read `node.parent` (out-of-range ids read as a default record;
theorems carry `i < h.length` hypotheses where it matters). -/
def parentOf (h : Heap) (i : Nat) : Option Nat :=
  (h.getD i default).parent

/-- Field read `node.identity`. -/
def identityOf (h : Heap) (i : Nat) : Option Int :=
  (h.getD i default).identity

/-- Field read `node.children`. -/
def childrenOf (h : Heap) (i : Nat) : List Nat :=
  (h.getD i default).children

/-- Field read `node.max_children`. -/
def maxChildrenOf (h : Heap) (i : Nat) : Option Nat :=
  (h.getD i default).maxChildren

/-- In-place update of the node object at id `i`. -/
def setAt (h : Heap) (i : Nat) (f : NodeData → NodeData) : Heap :=
  h.set i (f (h.getD i default))

/-- `Node(identity=v)` from simplenode.py: fresh node, no parent, no
children, no bound (the capacity check is skipped when
`max_children is None`). -/
def mkNode (v : Option Int) : NodeData :=
  ⟨none, v, [], none⟩

/-- `Node(identity=v, children=[], max_children=m)` with an explicit
fresh children list; the constructor's capacity check
`len(children) >= max_children` is `0 >= m` here, so construction
raises exactly when `m = 0`. -/
def mkNodeCap (v : Option Int) (m : Nat) : Except PyErr NodeData :=
  if 0 ≥ m then .error .valueError else .ok ⟨none, v, [], some m⟩

/-- The unconditional mutation shared by both branches of simplenode's
`add_child`: `self.children.append(child); child.parent = self`. -/
def appendAndReparent (h : Heap) (p c : Nat) : Heap :=
  setAt (setAt h p fun d => { d with children := d.children ++ [c] })
    c fun d => { d with parent := some p }

/-- simplenode.py `Node.add_child` (lines 111-116): if `max_children`
is set and `len(self.children) >= max_children`, raise `ValueError`
before mutating; otherwise append `child` and set `child.parent = self`. -/
def addChild (h : Heap) (p c : Nat) : Heap × Option PyErr :=
  match maxChildrenOf h p with
  | some m =>
      if (childrenOf h p).length ≥ m then (h, some .valueError)
      else (appendAndReparent h p c, none)
  | none => (appendAndReparent h p c, none)

/-- simplenode.py / simplenode2.py `Node.add_children`: if
`max_children` is set and `len(self.children) + len(children) >=
max_children`, raise `ValueError` before mutating; otherwise extend the
children list with all of `cs` and set each one's parent to `self`. -/
def addChildren (h : Heap) (p : Nat) (cs : List Nat) : Heap × Option PyErr :=
  match maxChildrenOf h p with
  | some m =>
      if (childrenOf h p).length + cs.length ≥ m then (h, some .valueError)
      else
        (cs.foldl (fun hh c => setAt hh c fun d => { d with parent := some p })
          (setAt h p fun d => { d with children := d.children ++ cs }), none)
  | none =>
      (cs.foldl (fun hh c => setAt hh c fun d => { d with parent := some p })
        (setAt h p fun d => { d with children := d.children ++ cs }), none)

/-- simplenode.py `Node.remove_child` (lines 126-128):
`self.children.remove(child)` removes the first occurrence (object
identity — the class defines no `__eq__`) and raises `ValueError` when
absent; then `child.parent = None`. -/
def removeChild (h : Heap) (p c : Nat) : Heap × Option PyErr :=
  if c ∈ childrenOf h p then
    (setAt (setAt h p fun d => { d with children := d.children.erase c })
      c fun d => { d with parent := none }, none)
  else (h, some .valueError)

/-- pytrees/node.py `Node.add_child` (lines 395-408): only
`self.children.append(child)` — no capacity check and the child's
parent field is not assigned. -/
def pyAddChild (h : Heap) (p c : Nat) : Heap :=
  setAt h p fun d => { d with children := d.children ++ [c] }

/-- pytrees/node.py `Node.remove_child` (lines 410-423): only
`self.children.remove(child)` — the child's parent field is not
cleared.  `list.remove` compares with `==`, which for this class is
object identity (see `nodeEqPy`). -/
def pyRemoveChild (h : Heap) (p c : Nat) : Heap × Option PyErr :=
  if c ∈ childrenOf h p then
    (setAt h p fun d => { d with children := d.children.erase c }, none)
  else (h, some .valueError)

/-- simplenode.py `Node.upwards_traversal` body (lines 105-109):
`current = self; while current is not None: yield current;
current = current.parent`.  The loop is modelled with explicit fuel;
on well-formed trees any fuel covering the chain length gives the full
chain (see `chainTerminated`). -/
def upChain (h : Heap) : Nat → Nat → List Nat
  | 0, _ => []
  | fuel + 1, i =>
      i :: (match parentOf h i with
            | none => []
            | some p => upChain h fuel p)

/-- simplenode.py `Node.upwards_traversal` with its `callback`
parameter: the parameter is accepted but never consulted by the body. -/
def upwardsTraversal (_cb : Option (Nat → Bool)) (h : Heap) (fuel i : Nat) :
    List Nat :=
  upChain h fuel i

/-- The fuel was enough: the walk reached a parentless (root) node. -/
def chainTerminated (h : Heap) (fuel i : Nat) : Bool :=
  match (upChain h fuel i).getLast? with
  | some j => parentOf h j == none
  | none => false

/-- The root reached by the upward walk. -/
def chainRoot (h : Heap) (fuel i : Nat) : Option Nat :=
  (upChain h fuel i).getLast?

/-- simplenode.py `Node.lowest_common_ancestor` (lines 167-172):
`ancestors = set(self.upwards_traversal())`; walk
`other.upwards_traversal()` and return the first member of the set,
else raise `ValueError` (the spec's `NoCommonAncestor`).  Sets of
nodes hash by object identity, so set membership is id membership. -/
def lowestCommonAncestor (h : Heap) (fuel a b : Nat) : Except PyErr Nat :=
  match (upChain h fuel b).find? (fun x => (upChain h fuel a).contains x) with
  | some r => .ok r
  | none => .error .valueError

/-- simplenode.py `Node.get_path` (lines 174-181):
`self_path = list(self.upwards_traversal())`;
`other_path = list(other.upwards_traversal()); other_path.reverse()`;
`path = self_path + other_path; path.remove(ancestor)` (first
occurrence; `ValueError` when absent). -/
def getPath (h : Heap) (fuel a b : Nat) : Except PyErr (List Nat) := do
  let ancestor ← lowestCommonAncestor h fuel a b
  let path := upChain h fuel a ++ (upChain h fuel b).reverse
  if path.contains ancestor then .ok (path.erase ancestor)
  else .error .valueError

/-- simplenode.py `Node.get_distance` (lines 183-185): `len(path)`. -/
def getDistance (h : Heap) (fuel a b : Nat) : Except PyErr Nat := do
  let path ← getPath h fuel a b
  .ok path.length

/-- pytrees/node.py `Node.get_ancestors` (lines 489-507): the parent,
then the parent's ancestors — the node itself is excluded. -/
def pyAncestors (h : Heap) : Nat → Nat → List Nat
  | 0, _ => []
  | fuel + 1, i =>
      match parentOf h i with
      | none => []
      | some p => p :: pyAncestors h fuel p

/-- pytrees/node.py `Node.lowest_common_ancestor` (lines 881-894):
`common_ancestors = [a for a in self.get_ancestors() if a in
node.get_ancestors()]; return common_ancestors[0]` — indexing an empty
list raises `IndexError`.  `in` uses `==`, which is object identity
for this class (see `nodeEqPy`). -/
def pyLowestCommonAncestor (h : Heap) (fuel a b : Nat) : Except PyErr Nat :=
  let ancestors := pyAncestors h fuel a
  let nodeAncestors := pyAncestors h fuel b
  match ancestors.filter (fun x => nodeAncestors.contains x) with
  | [] => .error .indexError
  | r :: _ => .ok r

/-- The climb loop of pytrees/node.py `Node.get_path`:
`while self != ancestor: path.append(self); self = self.parent`
(`!=` is object identity here).  If the walk steps past a parentless
node, the next comparison evaluates `None != ancestor`, which calls
`other.get_depth` on `None` — an `AttributeError`. -/
def pyClimb (h : Heap) : Nat → Nat → Nat → Except PyErr (List Nat)
  | 0, _, _ => .ok []
  | fuel + 1, x, stop =>
      if x = stop then .ok []
      else
        match parentOf h x with
        | some p => do
            let rest ← pyClimb h fuel p stop
            .ok (x :: rest)
        | none => .error .attributeError

/-- pytrees/node.py `Node.get_path` (lines 896-915): the climb from
`self` to the LCA, then the LCA, then the climb from `node` to the LCA
(in upward order, as written). -/
def pyGetPath (h : Heap) (fuel a b : Nat) : Except PyErr (List Nat) := do
  let ancestor ← pyLowestCommonAncestor h fuel a b
  let p1 ← pyClimb h fuel a ancestor
  let p2 ← pyClimb h fuel b ancestor
  .ok (p1 ++ ancestor :: p2)

/-- pytrees/node.py `Node.get_distance` (lines 917-928):
`len(path) - 1`. -/
def pyGetDistance (h : Heap) (fuel a b : Nat) : Except PyErr Nat := do
  let path ← pyGetPath h fuel a b
  .ok (path.length - 1)

/-- A pure view of a node and its whole subtree: identity,
`max_children`, and the ordered children subtrees.  Adequate for the
operations that never read parent pointers (downward traversals and
dict conversion). -/
inductive SimpleTree where
  | mk (identity : Option Int) (maxChildren : Option Nat)
      (children : List SimpleTree)

/-- The identity field of the subtree's root node. -/
def SimpleTree.identity : SimpleTree → Option Int
  | .mk i _ _ => i

/-- The children field of the subtree's root node. -/
def SimpleTree.children : SimpleTree → List SimpleTree
  | .mk _ _ cs => cs

mutual

/-- Number of nodes in a subtree (used as a termination measure). -/
def treeSize : SimpleTree → Nat
  | .mk _ _ cs => 1 + forestSize cs

/-- Number of nodes in a forest. -/
def forestSize : List SimpleTree → Nat
  | [] => 0
  | t :: ts => treeSize t + forestSize ts

end

theorem forestSize_append (xs ys : List SimpleTree) :
    forestSize (xs ++ ys) = forestSize xs + forestSize ys := by
  induction xs with
  | nil => simp [forestSize]
  | cons t ts ih => simp [forestSize, ih]; omega

theorem treeSize_pos (t : SimpleTree) : 0 < treeSize t := by
  cases t with
  | mk i m cs => simp [treeSize]

theorem le_forestSize_of_mem {c : SimpleTree} {cs : List SimpleTree}
    (h : c ∈ cs) : treeSize c ≤ forestSize cs := by
  induction cs with
  | nil => cases h
  | cons t ts ih =>
      rcases List.mem_cons.mp h with h1 | h2
      · subst h1; simp [forestSize]
      · have := ih h2; simp [forestSize]; omega

/-- Structural induction over `SimpleTree` through the nested
children lists. -/
theorem SimpleTree.inductionOn (P : SimpleTree → Prop)
    (step : ∀ i m cs, (∀ c ∈ cs, P c) → P (.mk i m cs)) :
    ∀ t, P t := by
  intro t
  have : ∀ n, ∀ t, treeSize t ≤ n → P t := by
    intro n
    induction n with
    | zero =>
        intro t ht
        exact absurd ht (by have := treeSize_pos t; omega)
    | succ n ih =>
        intro t ht
        cases t with
        | mk i m cs =>
            refine step i m cs (fun c hc => ih c ?_)
            have h1 := le_forestSize_of_mem hc
            have h2 : forestSize cs < treeSize (SimpleTree.mk i m cs) := by
              simp [treeSize]
            omega
  exact this (treeSize t) t (Nat.le_refl _)

mutual

/-- simplenode.py `Node.preorder_traversal` (lines 84-89):
`if callback is not None and not callback(self): return; yield self;
for child in self.children: yield from child.preorder_traversal(callback)`.
Observed as the sequence of yielded nodes' identities. -/
def preorderTraversal (cb : Option (SimpleTree → Bool)) :
    SimpleTree → List (Option Int)
  | .mk i m cs =>
      match cb with
      | some f =>
          if f (.mk i m cs) = false then []
          else i :: preorderForest cb cs
      | none => i :: preorderForest cb cs

/-- The `for child in self.children: yield from ...` loop of
`preorder_traversal`. -/
def preorderForest (cb : Option (SimpleTree → Bool)) :
    List SimpleTree → List (Option Int)
  | [] => []
  | c :: cs => preorderTraversal cb c ++ preorderForest cb cs

end

mutual

/-- simplenode.py `Node.postorder_traversal` (lines 91-96): the
callback guard, then the children, then `yield self`. -/
def postorderTraversal (cb : Option (SimpleTree → Bool)) :
    SimpleTree → List (Option Int)
  | .mk i m cs =>
      match cb with
      | some f =>
          if f (.mk i m cs) = false then []
          else postorderForest cb cs ++ [i]
      | none => postorderForest cb cs ++ [i]

/-- The children loop of `postorder_traversal`. -/
def postorderForest (cb : Option (SimpleTree → Bool)) :
    List SimpleTree → List (Option Int)
  | [] => []
  | c :: cs => postorderTraversal cb c ++ postorderForest cb cs

end

/-- simplenode.py `Node.levelorder_traversal` (lines 98-103): FIFO
queue seeded with `self`; the `callback` parameter is accepted but
never consulted by the body. -/
def levelorderTraversal (cb : Option (SimpleTree → Bool)) :
    List SimpleTree → List (Option Int)
  | [] => []
  | .mk i _m cs :: rest => i :: levelorderTraversal cb (rest ++ cs)
termination_by q => forestSize q
decreasing_by
  simp [forestSize_append, forestSize, treeSize]
  omega

mutual

/-- The pruning that (it will be proved) characterises the callback
semantics of `preorder_traversal` / `postorder_traversal`: a subtree
whose root fails the callback is dropped entirely; the traversal of
the pruned tree is the plain traversal. -/
def prunedBy (cb : SimpleTree → Bool) : SimpleTree → Option SimpleTree
  | .mk i m cs =>
      if cb (.mk i m cs) = false then none
      else some (.mk i m (prunedForest cb cs))

/-- `prunedBy` mapped over a forest, dropping pruned-away roots. -/
def prunedForest (cb : SimpleTree → Bool) : List SimpleTree → List SimpleTree
  | [] => []
  | c :: cs =>
      match prunedBy cb c with
      | none => prunedForest cb cs
      | some c2 => c2 :: prunedForest cb cs

end

/-- pytrees/node.py `Node.inorder_traversal` (lines 785-805):
`if self.has_children(): nodes.extend(self.children[0].inorder_traversal())`;
`nodes.append(self)`;
`if self.has_children(): nodes.extend(self.children[1].inorder_traversal())`
— the second branch indexes `children[1]` whenever the node has any
children, raising `IndexError` when there is exactly one.  Observed as
the identity sequence. -/
def inorderTraversal : SimpleTree → Except PyErr (List (Option Int))
  | .mk i _ [] => .ok [i]
  | .mk _i _ (c0 :: []) =>
      match inorderTraversal c0 with
      | .error e => .error e
      | .ok _ => .error .indexError
  | .mk i _ (c0 :: c1 :: _rest) =>
      match inorderTraversal c0 with
      | .error e => .error e
      | .ok l =>
          match inorderTraversal c1 with
          | .error e => .error e
          | .ok r => .ok (l ++ i :: r)
termination_by t => treeSize t
decreasing_by
  · simp [treeSize, forestSize]
  · simp [treeSize, forestSize]
    omega
  · simp [treeSize, forestSize]
    omega

/-- The serialized record consumed and produced by simplenode.py's
`_from_dict` / `to_dict`: the `identity` and `children` keys are
always present, the `max_children` key only when the bound is set
(`to_dict` omits it when `None`; `.get` reads an absent key as
`None`). -/
inductive NDict where
  | mk (identity : Option Int) (maxChildren : Option Nat)
      (children : List NDict)

mutual

/-- simplenode.py `Node.to_dict` (lines 158-165): record the identity,
the children recursively, and `max_children` when set. -/
def toDict : SimpleTree → NDict
  | .mk i m cs => .mk i m (toDictForest cs)

/-- The `[child.to_dict() for child in self.children]` comprehension. -/
def toDictForest : List SimpleTree → List NDict
  | [] => []
  | t :: ts => toDict t :: toDictForest ts

end

mutual

/-- simplenode.py `Node._from_dict` (lines 140-151): read the three
keys; run the constructor (whose capacity check compares the default
`children` list — length 0 — against `max_children`, raising
`ValueError` iff the bound is 0); rebuild the children recursively;
assign them through the `children` setter (lines 68-73), which raises
`ValueError` when `len(children) >= max_children`.  `from_dict`
(lines 153-155) calls `_from_dict` with no parent. -/
def fromDict : NDict → Except PyErr SimpleTree
  | .mk i m cs =>
      match m with
      | some mv =>
          if 0 ≥ mv then .error .valueError
          else
            match fromDictForest cs with
            | .error e => .error e
            | .ok built =>
                if built.length ≥ mv then .error .valueError
                else .ok (.mk i (some mv) built)
      | none =>
          match fromDictForest cs with
          | .error e => .error e
          | .ok built => .ok (.mk i none built)

/-- The `[cls._from_dict(c, node) for c in children_as_dicts ...]`
comprehension (every element of an `NDict` children list is a dict,
so the `isinstance` filter keeps all of them); the first raise
aborts the comprehension. -/
def fromDictForest : List NDict → Except PyErr (List SimpleTree)
  | [] => .ok []
  | d :: ds =>
      match fromDict d with
      | .error e => .error e
      | .ok t =>
          match fromDictForest ds with
          | .error e => .error e
          | .ok ts => .ok (t :: ts)

end

mutual

/-- Every node of the subtree has strictly fewer children than its
`max_children` bound, whenever the bound is set.  (`add_child` keeps
`len(children) <= max_children` but allows equality; strictness is
exactly what `from_dict`'s setter check tolerates.) -/
def strictCap : SimpleTree → Bool
  | .mk _ m cs =>
      (match m with
       | some mv => decide (cs.length < mv)
       | none => true) && strictCapForest cs

/-- `strictCap` over a forest. -/
def strictCapForest : List SimpleTree → Bool
  | [] => true
  | t :: ts => strictCap t && strictCapForest ts

end

/-- A CPython bound method object: the underlying function and the
identity of the object it is bound to.  Two bound methods compare
equal iff their functions are equal and their `__self__`s are the
*same object* (CPython `method_richcompare`). -/
structure BoundMethod where
  func : String
  selfId : Nat
deriving DecidableEq

/-- The bound method object `node.get_depth` of a pytrees/node.py
node (the method is never called by the comparison operators). -/
def getDepthMethod (i : Nat) : BoundMethod :=
  ⟨"Node.get_depth", i⟩

/-- pytrees/node.py `Node.__eq__` (lines 53-74):
`return self.get_depth == other.get_depth` — a comparison of the two
bound method objects, not of the depths. -/
def nodeEqPy (a b : Nat) : Bool :=
  getDepthMethod a == getDepthMethod b

/-- pytrees/node.py `Node.__ne__` (lines 76-97):
`return self.get_depth != other.get_depth`. -/
def nodeNePy (a b : Nat) : Bool :=
  getDepthMethod a != getDepthMethod b

/-- The `root` argument accepted by pytrees/tree.py `Tree.__init__`:
`None`, an existing `Node`, a dict, or a bare identity value.  A dict
is modelled by its list of key/value pairs (keys: identities, values:
lists of identities). -/
inductive RootArg where
  | noArg
  | node (i : Nat)
  | dict (entries : List (Option Int × List (Option Int)))
  | bare (v : Int)

/-- The `Tree` object state after construction. -/
structure TreeObj where
  root : Option Nat
  maxChildren : Option Nat
deriving DecidableEq, Repr

/-- pytrees/tree.py `Tree.__init__` (lines 24-59):
`root is None` → `self.root = None`; a `Node` → adopted after the
`max_children` check (`>`); a dict → `ValueError` unless it has
exactly one entry, and then `root.keys()[0]` raises `TypeError`
(`dict_keys` is not subscriptable); anything else → a fresh root
`Node` wrapping the identity.  Returns the extended heap and the
tree object. -/
def treeInit (h : Heap) (root : RootArg) (maxChildren : Option Nat) :
    Except PyErr (Heap × TreeObj) :=
  match root with
  | .noArg => .ok (h, ⟨none, maxChildren⟩)
  | .node i =>
      match maxChildren with
      | some m =>
          if (childrenOf h i).length > m then .error .valueError
          else .ok (h, ⟨some i, maxChildren⟩)
      | none => .ok (h, ⟨some i, maxChildren⟩)
  | .dict entries =>
      if entries.length ≠ 1 then .error .valueError
      else .error .typeError
  | .bare v =>
      .ok (h ++ [⟨none, some v, [], maxChildren⟩],
        ⟨some h.length, maxChildren⟩)

theorem list_getD_set {α : Type} (l : List α) (i j : Nat) (a d : α) :
    (l.set i a).getD j d = if i = j ∧ i < l.length then a else l.getD j d := by
  induction l generalizing i j with
  | nil => simp
  | cons x xs ih =>
      cases i with
      | zero =>
          cases j with
          | zero => simp
          | succ n => simp
      | succ n =>
          cases j with
          | zero => simp
          | succ k =>
              simp only [List.set, List.getD_cons_succ, List.length_cons]
              rw [ih]
              have : (n = k ∧ n < xs.length) ↔ (n + 1 = k + 1 ∧ n + 1 < xs.length + 1) := by
                omega
              rw [if_congr this rfl rfl]

theorem dataAt_setAt (h : Heap) (i j : Nat) (f : NodeData → NodeData) :
    (setAt h i f).getD j default =
      if i = j ∧ i < h.length then f (h.getD j default) else h.getD j default := by
  unfold setAt
  rw [list_getD_set]
  rcases Classical.em (i = j ∧ i < h.length) with hc | hc
  · rw [if_pos hc, if_pos hc, hc.1]
  · rw [if_neg hc, if_neg hc]

theorem length_setAt (h : Heap) (i : Nat) (f : NodeData → NodeData) :
    (setAt h i f).length = h.length := by
  unfold setAt
  exact List.length_set ..

/-- C9: in pytrees/node.py, `a == b` holds exactly when `a` and `b` are
the same object and `a != b` exactly when they are distinct, regardless
of identities or depths: `__eq__` / `__ne__` compare the bound method
objects `a.get_depth` and `b.get_depth` without calling them, and
CPython compares bound methods by function equality plus *identity* of
`__self__`. -/
theorem c9_eq_is_object_identity (a b : Nat) :
    (nodeEqPy a b = true ↔ a = b) ∧ (nodeNePy a b = true ↔ a ≠ b) := by
  constructor
  · simp [nodeEqPy, getDepthMethod]
  · simp [nodeNePy, getDepthMethod]

theorem inorder_error_is_indexError :
    ∀ t e, inorderTraversal t = .error e → e = .indexError := by
  intro t
  induction t using SimpleTree.inductionOn with
  | step i m cs ih =>
      intro e he
      cases cs with
      | nil => simp [inorderTraversal] at he
      | cons c0 rest =>
          cases rest with
          | nil =>
              rw [inorderTraversal] at he
              cases h0 : inorderTraversal c0 with
              | error e0 =>
                  rw [h0] at he
                  cases he
                  exact ih c0 (List.mem_cons_self ..) e h0
              | ok l => rw [h0] at he; cases he; rfl
          | cons c1 rest2 =>
              rw [inorderTraversal] at he
              cases h0 : inorderTraversal c0 with
              | error e0 =>
                  rw [h0] at he
                  cases he
                  exact ih c0 (List.mem_cons_self ..) e h0
              | ok l =>
                  rw [h0] at he
                  cases h1 : inorderTraversal c1 with
                  | error e1 =>
                      rw [h1] at he
                      cases he
                      exact ih c1 (by simp) e h1
                  | ok r => rw [h1] at he; cases he

/-- C10: pytrees/node.py `inorder_traversal` indexes `children[1]`
whenever the node has any children, so on every node with exactly one
child — whatever subtree that child carries — the call raises
`IndexError` instead of returning a sequence. -/
theorem c10_inorder_one_child_raises (i : Option Int) (m : Option Nat)
    (c : SimpleTree) :
    inorderTraversal (.mk i m [c]) = .error .indexError := by
  rw [inorderTraversal]
  cases h0 : inorderTraversal c with
  | error e => simp [inorder_error_is_indexError c e h0]
  | ok l => rfl

/-- C8 counterexample: `Tree()` (no argument, `root=None`) constructs
successfully with `tree.root = None` — a null root — and the
nested-dict form never constructs a tree at all (`root.keys()[0]`
raises `TypeError` when the dict has exactly one entry). -/
theorem c8_counterexample :
    treeInit [] .noArg none = .ok ([], ⟨none, none⟩) ∧
    treeInit [] (.dict [(some 1, [some 2])]) none = .error .typeError := by
  constructor
  · rfl
  · rfl

/-- C8 amended: after construction from a bare identity value or an
existing node, `tree.root` is non-null; but `Tree()` with no argument
sets `tree.root = None` (a null root, which `is_empty` reports), and
the nested-dict constructor form never produces a tree — it raises
`ValueError` unless the dict has exactly one entry and `TypeError`
otherwise. -/
theorem c8_tree_init_root (h : Heap) (v : Int) (i : Nat) (m : Option Nat)
    (entries : List (Option Int × List (Option Int))) :
    (∀ pr : Heap × TreeObj, treeInit h (.bare v) m = .ok pr →
        pr.2.root = some h.length) ∧
    (∀ pr : Heap × TreeObj, treeInit h (.node i) m = .ok pr →
        pr.2.root = some i) ∧
    (∀ pr : Heap × TreeObj, treeInit h .noArg m = .ok pr →
        pr.2.root = none) ∧
    (∀ pr : Heap × TreeObj, treeInit h (.dict entries) m ≠ .ok pr) := by
  refine ⟨?_, ?_, ?_, ?_⟩ <;> intro pr
  · intro he
    simp only [treeInit] at he
    injection he with he2
    rw [← he2]
  · intro he
    cases m with
    | none =>
        simp only [treeInit] at he
        injection he with he2
        rw [← he2]
    | some mv =>
        simp only [treeInit] at he
        split at he
        · cases he
        · injection he with he2
          rw [← he2]
  · intro he
    simp only [treeInit] at he
    injection he with he2
    rw [← he2]
  · intro he
    simp only [treeInit] at he
    split at he <;> cases he

/-- Witness for `c8_tree_init_root` at a concrete construction. -/
theorem c8_tree_init_root_witness :
    treeInit [] (.bare 7) none = .ok ([⟨none, some 7, [], none⟩], ⟨some 0, none⟩) ∧
    (([⟨none, some 7, [], none⟩], (⟨some 0, none⟩ : TreeObj)) :
        Heap × TreeObj).2.root = some 0 :=
  ⟨rfl, (c8_tree_init_root [] 7 0 none []).1
    ([⟨none, some 7, [], none⟩], ⟨some 0, none⟩) rfl⟩

theorem parentOf_setAt (h : Heap) (i j : Nat) (f : NodeData → NodeData) :
    parentOf (setAt h i f) j =
      if i = j ∧ i < h.length then (f (h.getD j default)).parent
      else parentOf h j := by
  unfold parentOf
  rw [dataAt_setAt]
  split <;> rfl

theorem childrenOf_setAt (h : Heap) (i j : Nat) (f : NodeData → NodeData) :
    childrenOf (setAt h i f) j =
      if i = j ∧ i < h.length then (f (h.getD j default)).children
      else childrenOf h j := by
  unfold childrenOf
  rw [dataAt_setAt]
  split <;> rfl

theorem maxChildrenOf_setAt (h : Heap) (i j : Nat) (f : NodeData → NodeData) :
    maxChildrenOf (setAt h i f) j =
      if i = j ∧ i < h.length then (f (h.getD j default)).maxChildren
      else maxChildrenOf h j := by
  unfold maxChildrenOf
  rw [dataAt_setAt]
  split <;> rfl

theorem childrenOf_setAt_parentOnly (h : Heap) (i j : Nat)
    (f : NodeData → NodeData) (hf : ∀ d, (f d).children = d.children) :
    childrenOf (setAt h i f) j = childrenOf h j := by
  rw [childrenOf_setAt]
  split
  · next hcond =>
      rw [hf]
      rfl
  · rfl

theorem parentOf_appendAndReparent (h : Heap) (p c : Nat) (hc : c < h.length) :
    parentOf (appendAndReparent h p c) c = some p := by
  unfold appendAndReparent
  rw [parentOf_setAt]
  rw [if_pos ⟨rfl, by rw [length_setAt]; exact hc⟩]

theorem childrenOf_appendAndReparent (h : Heap) (p c j : Nat) :
    childrenOf (appendAndReparent h p c) j =
      if p = j ∧ p < h.length then childrenOf h j ++ [c] else childrenOf h j := by
  unfold appendAndReparent
  rw [childrenOf_setAt_parentOnly
    (setAt h p fun d => { d with children := d.children ++ [c] }) c j
    (fun d => { d with parent := some p }) (fun d => rfl)]
  rw [childrenOf_setAt]
  split
  · rfl
  · rfl

/-- C1 counterexample: (a) in pytrees/node.py a successful
`add_child(p, c)` leaves `c.parent` unchanged (`None`), not `p`;
(b) in simplenode.py, after two successful `add_child(p, c)` calls with
the same child, a successful `remove_child(p, c)` leaves `c` still a
member of `p.children` (only the first occurrence is removed). -/
theorem c1_counterexample :
    (parentOf (pyAddChild [mkNode (some 1), mkNode (some 2)] 0 1) 1 = none ∧
     1 ∈ childrenOf (pyAddChild [mkNode (some 1), mkNode (some 2)] 0 1) 0) ∧
    (let h0 : Heap := [mkNode (some 1), mkNode (some 2)]
     let h1 := (addChild h0 0 1).1
     let h2 := (addChild h1 0 1).1
     (addChild h0 0 1).2 = none ∧ (addChild h1 0 1).2 = none ∧
     (removeChild h2 0 1).2 = none ∧
     1 ∈ childrenOf (removeChild h2 0 1).1 0 ∧
     parentOf (removeChild h2 0 1).1 1 = none) := by
  decide

/-- C1 amended: in simplenode.py, a successful `add_child(p, c)` ends
with `c.parent == p` and `c ∈ p.children`, and a successful
`remove_child(p, c)` ends with `c.parent == None` and — provided `c`
occurred at most once in `p.children` — `c ∉ p.children`.  In
pytrees/node.py, `add_child` / `remove_child` mutate only the children
list: every node's parent reference is left unchanged (so after
`add_child(p, c)`, `c ∈ p.children` but `c.parent` is whatever it was
before, not necessarily `p`). -/
theorem c1_add_remove_child (h : Heap) (p c : Nat)
    (hp : p < h.length) (hc : c < h.length) :
    ((addChild h p c).2 = none →
        parentOf (addChild h p c).1 c = some p ∧
        c ∈ childrenOf (addChild h p c).1 p) ∧
    ((removeChild h p c).2 = none →
        parentOf (removeChild h p c).1 c = none ∧
        ((childrenOf h p).count c ≤ 1 → c ∉ childrenOf (removeChild h p c).1 p)) ∧
    (∀ i, parentOf (pyAddChild h p c) i = parentOf h i) ∧
    c ∈ childrenOf (pyAddChild h p c) p ∧
    (∀ i, parentOf (pyRemoveChild h p c).1 i = parentOf h i) := by
  refine ⟨?_, ?_, ?_, ?_, ?_⟩
  · intro hok
    have hres : (addChild h p c).1 = appendAndReparent h p c := by
      revert hok
      unfold addChild
      cases maxChildrenOf h p with
      | none => intro _; rfl
      | some m =>
          dsimp only
          by_cases hlen : (childrenOf h p).length ≥ m
          · rw [if_pos hlen]; intro hok; cases hok
          · rw [if_neg hlen]; intro _; rfl
    rw [hres]
    refine ⟨parentOf_appendAndReparent h p c hc, ?_⟩
    rw [childrenOf_appendAndReparent, if_pos ⟨rfl, hp⟩]
    simp
  · intro hok
    unfold removeChild at hok ⊢
    by_cases hmem : c ∈ childrenOf h p
    · rw [if_pos hmem] at hok ⊢
      constructor
      · simp only
        rw [parentOf_setAt]
        rw [if_pos ⟨rfl, by rw [length_setAt]; exact hc⟩]
      · intro hcount
        simp only
        rw [childrenOf_setAt_parentOnly
          (setAt h p fun d => { d with children := d.children.erase c }) c p
          (fun d => { d with parent := none }) (fun d => rfl)]
        rw [childrenOf_setAt, if_pos ⟨rfl, hp⟩]
        intro hmem2
        have h1 : 0 < ((childrenOf h p).erase c).count c :=
          List.count_pos_iff.mpr hmem2
        rw [List.count_erase_self] at h1
        have h2 : 0 < (childrenOf h p).count c :=
          List.count_pos_iff.mpr hmem
        omega
    · rw [if_neg hmem] at hok; cases hok
  · intro i
    unfold pyAddChild
    rw [parentOf_setAt]
    split
    · rfl
    · rfl
  · unfold pyAddChild
    rw [childrenOf_setAt, if_pos ⟨rfl, hp⟩]
    simp
  · intro i
    unfold pyRemoveChild
    by_cases hmem : c ∈ childrenOf h p
    · rw [if_pos hmem]
      simp only
      rw [parentOf_setAt]
      split
      · rfl
      · rfl
    · rw [if_neg hmem]

/-- Witness for `c1_add_remove_child` on a two-node heap. -/
theorem c1_add_remove_child_witness :
    (0 < ([mkNode (some 1), mkNode (some 2)] : Heap).length ∧
     1 < ([mkNode (some 1), mkNode (some 2)] : Heap).length) ∧
    (((addChild [mkNode (some 1), mkNode (some 2)] 0 1).2 = none →
        parentOf (addChild [mkNode (some 1), mkNode (some 2)] 0 1).1 1 = some 0 ∧
        1 ∈ childrenOf (addChild [mkNode (some 1), mkNode (some 2)] 0 1).1 0) ∧
     ((removeChild [mkNode (some 1), mkNode (some 2)] 0 1).2 = none →
        parentOf (removeChild [mkNode (some 1), mkNode (some 2)] 0 1).1 1 = none ∧
        ((childrenOf [mkNode (some 1), mkNode (some 2)] 0).count 1 ≤ 1 →
          1 ∉ childrenOf (removeChild [mkNode (some 1), mkNode (some 2)] 0 1).1 0)) ∧
     (∀ i, parentOf (pyAddChild [mkNode (some 1), mkNode (some 2)] 0 1) i =
        parentOf [mkNode (some 1), mkNode (some 2)] i) ∧
     1 ∈ childrenOf (pyAddChild [mkNode (some 1), mkNode (some 2)] 0 1) 0 ∧
     (∀ i, parentOf (pyRemoveChild [mkNode (some 1), mkNode (some 2)] 0 1).1 i =
        parentOf [mkNode (some 1), mkNode (some 2)] i)) :=
  ⟨⟨by decide, by decide⟩,
   c1_add_remove_child [mkNode (some 1), mkNode (some 2)] 0 1
     (by decide) (by decide)⟩

/-- C5 counterexample: a parent with `max_children = 2` and no
children, given a batch of two fresh children — the combined
post-insert count (2) does not exceed the bound (2), yet
`add_children` raises `ValueError` (its check uses `>=`). -/
theorem c5_counterexample :
    (childrenOf [⟨none, some 1, [], some 2⟩, mkNode (some 2), mkNode (some 3)] 0).length
        + 2 ≤ 2 ∧
    (addChildren [⟨none, some 1, [], some 2⟩, mkNode (some 2), mkNode (some 3)]
        0 [1, 2]).2 = some .valueError ∧
    (addChildren [⟨none, some 1, [], some 2⟩, mkNode (some 2), mkNode (some 3)]
        0 [1, 2]).1 =
      [⟨none, some 1, [], some 2⟩, mkNode (some 2), mkNode (some 3)] := by
  decide

/-- C5 amended: with `max_children` configured to `m`,
`add_children(p, cs)` checks capacity against the combined post-insert
count before mutating any element, all-or-nothing — but it succeeds
exactly when `len(p.children) + len(cs)` is *strictly less than* `m`
(the `>=` comparison also rejects a batch that would exactly fill the
bound); when it fails it raises `ValueError` (the spec's
`CapacityExceeded`) with the heap unchanged — no child appended, no
parent reference changed. -/
theorem c5_add_children_capacity (h : Heap) (p : Nat) (cs : List Nat) (m : Nat)
    (hm : maxChildrenOf h p = some m) :
    ((addChildren h p cs).2 = none ↔ (childrenOf h p).length + cs.length < m) ∧
    ((addChildren h p cs).2 ≠ none →
        (addChildren h p cs).2 = some .valueError ∧ (addChildren h p cs).1 = h) := by
  unfold addChildren
  rw [hm]
  dsimp only
  by_cases hlen : (childrenOf h p).length + cs.length ≥ m
  · rw [if_pos hlen]
    constructor
    · constructor
      · intro hok
        cases hok
      · intro hlt
        omega
    · intro _
      exact ⟨rfl, rfl⟩
  · rw [if_neg hlen]
    constructor
    · constructor
      · intro _
        omega
      · intro _
        rfl
    · intro hne
      exact absurd rfl hne

/-- Witness for `c5_add_children_capacity` on a concrete heap. -/
theorem c5_add_children_capacity_witness :
    maxChildrenOf [⟨none, some 1, [], some 5⟩, mkNode (some 2)] 0 = some 5 ∧
    (((addChildren [⟨none, some 1, [], some 5⟩, mkNode (some 2)] 0 [1]).2 = none ↔
        (childrenOf [⟨none, some 1, [], some 5⟩, mkNode (some 2)] 0).length + [1].length < 5) ∧
     ((addChildren [⟨none, some 1, [], some 5⟩, mkNode (some 2)] 0 [1]).2 ≠ none →
        (addChildren [⟨none, some 1, [], some 5⟩, mkNode (some 2)] 0 [1]).2
            = some .valueError ∧
        (addChildren [⟨none, some 1, [], some 5⟩, mkNode (some 2)] 0 [1]).1
            = [⟨none, some 1, [], some 5⟩, mkNode (some 2)])) :=
  ⟨by decide,
   c5_add_children_capacity [⟨none, some 1, [], some 5⟩, mkNode (some 2)]
     0 [1] 5 (by decide)⟩

/-- C7 counterexample: a state reachable from three fresh
constructions by two successful simplenode.py `add_child` calls in
which node 2 is simultaneously a member of the children lists of the
two distinct parents 0 and 1 — the second `add_child` silently
accepted a child that already had a different parent. -/
theorem c7_counterexample :
    (let h0 : Heap := [mkNode (some 1), mkNode (some 2), mkNode (some 3)]
     let h1 := (addChild h0 0 2).1
     (addChild h0 0 2).2 = none ∧
     parentOf h1 2 = some 0 ∧
     (addChild h1 1 2).2 = none ∧
     2 ∈ childrenOf (addChild h1 1 2).1 0 ∧
     2 ∈ childrenOf (addChild h1 1 2).1 1) := by
  decide

/-- C7 amended: simplenode.py `add_child` silently accepts a child
that is already in a different parent's children list: with capacity
available it succeeds, reassigns `c.parent` to the new parent, appends
`c` to the new parent's list — and leaves `c` in the old parent's
list, so a node can appear in two distinct parents' children lists at
a reachable state (the parent *field* is unique, list membership is
not). -/
theorem c7_silent_reparent (h : Heap) (p q c : Nat)
    (hp : p < h.length) (hc : c < h.length) (hq : q ≠ p)
    (hmax : maxChildrenOf h p = none) (hmem : c ∈ childrenOf h q) :
    (addChild h p c).2 = none ∧
    parentOf (addChild h p c).1 c = some p ∧
    c ∈ childrenOf (addChild h p c).1 p ∧
    c ∈ childrenOf (addChild h p c).1 q := by
  have hres : addChild h p c = (appendAndReparent h p c, none) := by
    unfold addChild
    rw [hmax]
  rw [hres]
  refine ⟨rfl, parentOf_appendAndReparent h p c hc, ?_, ?_⟩
  · rw [childrenOf_appendAndReparent, if_pos ⟨rfl, hp⟩]
    simp
  · rw [childrenOf_appendAndReparent, if_neg (fun hcon => hq hcon.1.symm)]
    exact hmem

/-- Witness for `c7_silent_reparent`: node 2 is already a child of
node 1, and node 0 adopts it. -/
theorem c7_silent_reparent_witness :
    (0 < ([mkNode (some 1), ⟨none, some 2, [2], none⟩, ⟨some 1, some 3, [], none⟩] : Heap).length ∧
     2 < ([mkNode (some 1), ⟨none, some 2, [2], none⟩, ⟨some 1, some 3, [], none⟩] : Heap).length ∧
     (1 : Nat) ≠ 0 ∧
     maxChildrenOf [mkNode (some 1), ⟨none, some 2, [2], none⟩, ⟨some 1, some 3, [], none⟩] 0 = none ∧
     2 ∈ childrenOf [mkNode (some 1), ⟨none, some 2, [2], none⟩, ⟨some 1, some 3, [], none⟩] 1) ∧
    ((addChild [mkNode (some 1), ⟨none, some 2, [2], none⟩, ⟨some 1, some 3, [], none⟩] 0 2).2 = none ∧
     parentOf (addChild [mkNode (some 1), ⟨none, some 2, [2], none⟩, ⟨some 1, some 3, [], none⟩] 0 2).1 2 = some 0 ∧
     2 ∈ childrenOf (addChild [mkNode (some 1), ⟨none, some 2, [2], none⟩, ⟨some 1, some 3, [], none⟩] 0 2).1 0 ∧
     2 ∈ childrenOf (addChild [mkNode (some 1), ⟨none, some 2, [2], none⟩, ⟨some 1, some 3, [], none⟩] 0 2).1 1) :=
  ⟨⟨by decide, by decide, by decide, by decide, by decide⟩,
   c7_silent_reparent
     [mkNode (some 1), ⟨none, some 2, [2], none⟩, ⟨some 1, some 3, [], none⟩]
     0 1 2 (by decide) (by decide) (by decide) (by decide) (by decide)⟩

theorem find?_first_split {α : Type} (p : α → Bool) :
    ∀ (l : List α) (r : α), l.find? p = some r →
      ∃ l1 l2, l = l1 ++ r :: l2 ∧ (∀ x ∈ l1, p x = false) ∧ p r = true := by
  intro l
  induction l with
  | nil => intro r h; cases h
  | cons x xs ih =>
      intro r h
      by_cases hx : p x = true
      · rw [List.find?_cons_of_pos _ hx] at h
        cases h
        refine ⟨[], xs, rfl, ?_, hx⟩
        intro y hy
        cases hy
      · rw [List.find?_cons_of_neg _ hx] at h
        obtain ⟨l1, l2, heq, hall, hr⟩ := ih r h
        refine ⟨x :: l1, l2, ?_, ?_, hr⟩
        · rw [heq]
          rfl
        · intro y hy
          rcases List.mem_cons.mp hy with h1 | h2
          · rw [h1]
            exact Bool.not_eq_true _ ▸ hx
          · exact hall y h2

theorem upChain_head (h : Heap) (fuel i : Nat) (hf : 0 < fuel) :
    i ∈ upChain h fuel i := by
  cases fuel with
  | zero => omega
  | succ n => rw [upChain]; exact List.mem_cons_self ..

/-- C3 amended: simplenode.py `lowest_common_ancestor(a, b)` behaves
as claimed — it builds the set of `a`'s ancestors-including-`a` via
upward traversal, walks `b`'s upward chain (including `b`) and returns
the first node of that chain found in the set; it fails (with
`ValueError`, the spec's `NoCommonAncestor`) exactly when the walk
exhausts without a match, which — for nodes whose upward chains reach
a root — can only happen when the two nodes have different roots; and
`lowest_common_ancestor(a, a)` returns `a`.  The claim's other cited
implementation, pytrees/node.py `lowest_common_ancestor`, intersects
the *strict* ancestor lists (`get_ancestors` excludes the node
itself): whenever `a` is a root it raises `IndexError` for every
partner `b` — including same-tree pairs — and `lowest_common_ancestor(a, a)`
returns `a`'s parent rather than `a`. -/
theorem c3_lowest_common_ancestor (h : Heap) (fuel a b : Nat)
    (ha : chainTerminated h fuel a = true)
    (hb : chainTerminated h fuel b = true) :
    lowestCommonAncestor h fuel a a = .ok a ∧
    (∀ r, lowestCommonAncestor h fuel a b = .ok r →
        r ∈ upChain h fuel a ∧
        ∃ l1 l2, upChain h fuel b = l1 ++ r :: l2 ∧
          ∀ x ∈ l1, x ∉ upChain h fuel a) ∧
    (lowestCommonAncestor h fuel a b = .error .valueError ↔
        ∀ x ∈ upChain h fuel b, x ∉ upChain h fuel a) ∧
    (lowestCommonAncestor h fuel a b = .error .valueError →
        chainRoot h fuel a ≠ chainRoot h fuel b) ∧
    (parentOf h a = none →
        pyLowestCommonAncestor h fuel a b = .error .indexError) ∧
    (∀ p, parentOf h a = some p →
        pyLowestCommonAncestor h fuel a a = .ok p) := by
  have hfuel : 0 < fuel := by
    cases fuel with
    | zero =>
        rw [chainTerminated, upChain] at ha
        cases ha
    | succ n => omega
  have hmem_a : a ∈ upChain h fuel a := upChain_head h fuel a hfuel
  refine ⟨?_, ?_, ?_, ?_, ?_, ?_⟩
  · have hfind : (upChain h fuel a).find?
        (fun x => (upChain h fuel a).contains x) = some a := by
      obtain ⟨n, rfl⟩ : ∃ n, fuel = n + 1 := ⟨fuel - 1, by omega⟩
      conv_lhs => rw [upChain]
      rw [List.find?_cons_of_pos]
      exact List.elem_iff.mpr hmem_a
    unfold lowestCommonAncestor
    rw [hfind]
  · intro r hr
    unfold lowestCommonAncestor at hr
    cases hfind : (upChain h fuel b).find?
        (fun x => (upChain h fuel a).contains x) with
    | none => rw [hfind] at hr; cases hr
    | some r2 =>
        rw [hfind] at hr
        cases hr
        obtain ⟨l1, l2, heq, hall, hpr⟩ := find?_first_split _ _ _ hfind
        refine ⟨List.elem_iff.mp hpr, l1, l2, heq, ?_⟩
        intro x hx hmemx
        have hfalse := hall x hx
        have htrue : (upChain h fuel a).contains x = true :=
          List.elem_iff.mpr hmemx
        rw [htrue] at hfalse
        cases hfalse
  · unfold lowestCommonAncestor
    cases hfind : (upChain h fuel b).find?
        (fun x => (upChain h fuel a).contains x) with
    | none =>
        constructor
        · intro _ x hx hmemx
          have := List.find?_eq_none.mp hfind x hx
          exact this (List.elem_iff.mpr hmemx)
        · intro _; rfl
    | some r =>
        constructor
        · intro hcon; cases hcon
        · intro hnone
          have hpr := List.find?_some hfind
          have hmemr := List.mem_of_find?_eq_some hfind
          exact absurd (List.elem_iff.mp hpr) (hnone r hmemr)
  · intro herr hroots
    unfold lowestCommonAncestor at herr
    cases hfind : (upChain h fuel b).find?
        (fun x => (upChain h fuel a).contains x) with
    | some r => rw [hfind] at herr; cases herr
    | none =>
        unfold chainTerminated at ha hb
        unfold chainRoot at hroots
        cases hlb : (upChain h fuel b).getLast? with
        | none => rw [hlb] at hb; cases hb
        | some rb =>
            have hrb_mem_b : rb ∈ upChain h fuel b :=
              List.mem_of_mem_getLast? hlb
            rw [hlb] at hroots
            have hrb_mem_a : rb ∈ upChain h fuel a :=
              List.mem_of_mem_getLast?
                (show (upChain h fuel a).getLast? = some rb from hroots)
            have := List.find?_eq_none.mp hfind rb hrb_mem_b
            exact this (List.elem_iff.mpr hrb_mem_a)
  · intro hroot
    have hanc : pyAncestors h fuel a = [] := by
      cases fuel with
      | zero => rfl
      | succ n => rw [pyAncestors, hroot]
    simp only [pyLowestCommonAncestor, hanc, List.filter_nil]
  · intro p hp
    obtain ⟨n, rfl⟩ : ∃ n, fuel = n + 1 := ⟨fuel - 1, by omega⟩
    have hanc : pyAncestors h (n + 1) a = p :: pyAncestors h n p := by
      rw [pyAncestors, hp]
    simp only [pyLowestCommonAncestor, hanc]
    rw [List.filter_cons_of_pos]
    exact List.elem_iff.mpr (List.mem_cons_self ..)

/-- Witness for `c3_lowest_common_ancestor` on a one-node heap. -/
theorem c3_lowest_common_ancestor_witness :
    (chainTerminated [mkNode (some 5)] 1 0 = true ∧
     chainTerminated [mkNode (some 5)] 1 0 = true) ∧
    (lowestCommonAncestor [mkNode (some 5)] 1 0 0 = .ok 0 ∧
     (∀ r, lowestCommonAncestor [mkNode (some 5)] 1 0 0 = .ok r →
        r ∈ upChain [mkNode (some 5)] 1 0 ∧
        ∃ l1 l2, upChain [mkNode (some 5)] 1 0 = l1 ++ r :: l2 ∧
          ∀ x ∈ l1, x ∉ upChain [mkNode (some 5)] 1 0) ∧
     (lowestCommonAncestor [mkNode (some 5)] 1 0 0 = .error .valueError ↔
        ∀ x ∈ upChain [mkNode (some 5)] 1 0, x ∉ upChain [mkNode (some 5)] 1 0) ∧
     (lowestCommonAncestor [mkNode (some 5)] 1 0 0 = .error .valueError →
        chainRoot [mkNode (some 5)] 1 0 ≠ chainRoot [mkNode (some 5)] 1 0) ∧
     (parentOf [mkNode (some 5)] 0 = none →
        pyLowestCommonAncestor [mkNode (some 5)] 1 0 0 = .error .indexError) ∧
     (∀ p, parentOf [mkNode (some 5)] 0 = some p →
        pyLowestCommonAncestor [mkNode (some 5)] 1 0 0 = .ok p)) :=
  ⟨⟨by decide, by decide⟩,
   c3_lowest_common_ancestor [mkNode (some 5)] 1 0 0 (by decide) (by decide)⟩

/-- The chain tree root→A→B→C of the claim: ids 0=root, 1=A, 2=B, 3=C,
each node the single child of the one before it, parent links set. -/
def chainHeap : Heap :=
  [⟨none, some 10, [1], none⟩,
   ⟨some 0, some 11, [2], none⟩,
   ⟨some 1, some 12, [3], none⟩,
   ⟨some 2, some 13, [], none⟩]

/-- C3 counterexample: the claim's cited pytrees/node.py
`lowest_common_ancestor` falsifies it on the chain root→A→B→C
(ids 0=root, 3=C): `lowest_common_ancestor(root, root)` and
`lowest_common_ancestor(root, C)` raise `IndexError` although both
pairs lie in the same tree (the root's `get_ancestors` list is empty),
and `lowest_common_ancestor(C, C)` returns node 2 — C's parent — not
C. -/
theorem c3_counterexample :
    pyLowestCommonAncestor chainHeap 4 0 0 = .error .indexError ∧
    pyLowestCommonAncestor chainHeap 4 0 3 = .error .indexError ∧
    pyLowestCommonAncestor chainHeap 4 3 3 = .ok 2 ∧
    (2 : Nat) ≠ 3 :=
  ⟨rfl, rfl, rfl, by decide⟩

/-- C4 counterexample: on the chain root→A→B→C, simplenode.py
`root.get_distance(C)` returns `len(path)` = 4, not 3; and
pytrees/node.py `root.get_path(C)` / `root.get_distance(C)` do not
return anything — they raise `IndexError` (its
`lowest_common_ancestor` indexes an empty common-ancestor list because
`get_ancestors` excludes the node itself, so the root has none). -/
theorem c4_counterexample :
    getDistance chainHeap 4 0 3 = .ok 4 ∧
    (4 : Nat) ≠ 3 ∧
    pyGetPath chainHeap 4 0 3 = .error .indexError ∧
    pyGetDistance chainHeap 4 0 3 = .error .indexError :=
  ⟨rfl, by decide, rfl, rfl⟩

/-- C4 amended: for the chain root→A→B→C, simplenode.py
`root.get_path(C)` returns `[root, A, B, C]` as claimed, but
`root.get_distance(C)` returns 4 — the number of nodes on the path
(`len(path)`), not the number of edges; in pytrees/node.py both calls
raise `IndexError` out of `lowest_common_ancestor`. -/
theorem c4_chain_path_distance :
    getPath chainHeap 4 0 3 = .ok [0, 1, 2, 3] ∧
    getDistance chainHeap 4 0 3 = .ok 4 ∧
    pyLowestCommonAncestor chainHeap 4 0 3 = .error .indexError ∧
    pyGetPath chainHeap 4 0 3 = .error .indexError ∧
    pyGetDistance chainHeap 4 0 3 = .error .indexError :=
  ⟨rfl, rfl, rfl, rfl, rfl⟩

theorem preorderForest_pruned (cb : SimpleTree → Bool)
    (cs : List SimpleTree)
    (ih : ∀ c ∈ cs, preorderTraversal (some cb) c =
        match prunedBy cb c with
        | none => []
        | some c2 => preorderTraversal none c2) :
    preorderForest (some cb) cs = preorderForest none (prunedForest cb cs) := by
  induction cs with
  | nil => rfl
  | cons c cs ihl =>
      rw [preorderForest, prunedForest]
      rw [ih c (List.mem_cons_self ..)]
      cases hc : prunedBy cb c with
      | none =>
          exact ihl (fun x hx => ih x (List.mem_cons_of_mem _ hx))
      | some c2 =>
          rw [preorderForest]
          rw [ihl (fun x hx => ih x (List.mem_cons_of_mem _ hx))]

theorem preorder_pruned (cb : SimpleTree → Bool) (t : SimpleTree) :
    preorderTraversal (some cb) t =
      match prunedBy cb t with
      | none => []
      | some t2 => preorderTraversal none t2 := by
  induction t using SimpleTree.inductionOn with
  | step i m cs ih =>
      rw [preorderTraversal, prunedBy]
      by_cases hcb : cb (.mk i m cs) = false
      · rw [if_pos hcb, if_pos hcb]
      · rw [if_neg hcb, if_neg hcb]
        dsimp only
        rw [preorderTraversal]
        rw [preorderForest_pruned cb cs ih]

theorem postorderForest_pruned (cb : SimpleTree → Bool)
    (cs : List SimpleTree)
    (ih : ∀ c ∈ cs, postorderTraversal (some cb) c =
        match prunedBy cb c with
        | none => []
        | some c2 => postorderTraversal none c2) :
    postorderForest (some cb) cs = postorderForest none (prunedForest cb cs) := by
  induction cs with
  | nil => rfl
  | cons c cs ihl =>
      rw [postorderForest, prunedForest]
      rw [ih c (List.mem_cons_self ..)]
      cases hc : prunedBy cb c with
      | none =>
          exact ihl (fun x hx => ih x (List.mem_cons_of_mem _ hx))
      | some c2 =>
          rw [postorderForest]
          rw [ihl (fun x hx => ih x (List.mem_cons_of_mem _ hx))]

theorem postorder_pruned (cb : SimpleTree → Bool) (t : SimpleTree) :
    postorderTraversal (some cb) t =
      match prunedBy cb t with
      | none => []
      | some t2 => postorderTraversal none t2 := by
  induction t using SimpleTree.inductionOn with
  | step i m cs ih =>
      rw [postorderTraversal, prunedBy]
      by_cases hcb : cb (.mk i m cs) = false
      · rw [if_pos hcb, if_pos hcb]
      · rw [if_neg hcb, if_neg hcb]
        dsimp only
        rw [postorderTraversal]
        rw [postorderForest_pruned cb cs ih]

theorem levelorder_ignores_callback (cb : Option (SimpleTree → Bool)) :
    ∀ q, levelorderTraversal cb q = levelorderTraversal none q := by
  have hgen : ∀ n q, forestSize q ≤ n →
      levelorderTraversal cb q = levelorderTraversal none q := by
    intro n
    induction n with
    | zero =>
        intro q hq
        cases q with
        | nil => rw [levelorderTraversal, levelorderTraversal]
        | cons t rest =>
            have := treeSize_pos t
            simp [forestSize] at hq
            omega
    | succ n ih =>
        intro q hq
        cases q with
        | nil => rw [levelorderTraversal, levelorderTraversal]
        | cons t rest =>
            cases t with
            | mk i m cs =>
                rw [levelorderTraversal, levelorderTraversal]
                have hle : forestSize (rest ++ cs) ≤ n := by
                  simp [forestSize, treeSize, forestSize_append] at hq ⊢
                  omega
                rw [ih (rest ++ cs) hle]
  intro q
  exact hgen (forestSize q) q (Nat.le_refl _)

/-- The example tree for the C2 counterexample: root (identity 0) with
two leaf children (identities 1 and 2). -/
def exTree : SimpleTree :=
  .mk (some 0) none [.mk (some 1) none [], .mk (some 2) none []]

/-- C2 counterexample, on `exTree` (root 0 with leaf children 1, 2):
(a) with the predicate that is true exactly at node 1, the claim
predicts preorder `[0]` (stop right before yielding 1); the code
instead checks the callback as a *continue* condition at the root,
finds it false and yields nothing; (b) with the predicate false
exactly at node 1, preorder yields `[0, 2]` — node 1's subtree is
pruned but the traversal continues with the next sibling instead of
ending; (c) level-order ignores the callback entirely (a
constantly-false callback still yields all three nodes), and (d) so
does the upwards traversal. -/
theorem c2_counterexample :
    preorderTraversal (some fun t => t.identity == some 1) exTree = [] ∧
    ([] : List (Option Int)) ≠ [some 0] ∧
    preorderTraversal (some fun t => !(t.identity == some 1)) exTree
      = [some 0, some 2] ∧
    levelorderTraversal (some fun _ => false) [exTree]
      = [some 0, some 1, some 2] ∧
    upwardsTraversal (some fun _ => false) chainHeap 4 3 = [3, 2, 1, 0] :=
  ⟨rfl, by decide, rfl,
   by simp [levelorderTraversal, exTree], rfl⟩

/-- C2 amended: the callback of simplenode.py's traversals is a
*continue*-predicate with subtree-pruning semantics, honoured only by
preorder and postorder: when it returns false for a node, that node
and its whole subtree are skipped (not yielded) and the traversal
continues with the following siblings — formally, the traversal with a
callback equals the plain traversal of the tree pruned at every
failing node (at the starting node this means an empty result); nodes
on surviving paths are yielded in the usual order.  The level-order
and upwards traversals accept the callback but ignore it and always
yield the full sequence. -/
theorem c2_traversal_callback_semantics (cb : SimpleTree → Bool)
    (t : SimpleTree) (cbn : Nat → Bool) (h : Heap) (fuel i : Nat) :
    (preorderTraversal (some cb) t =
      match prunedBy cb t with
      | none => []
      | some t2 => preorderTraversal none t2) ∧
    (postorderTraversal (some cb) t =
      match prunedBy cb t with
      | none => []
      | some t2 => postorderTraversal none t2) ∧
    levelorderTraversal (some cb) [t] = levelorderTraversal none [t] ∧
    upwardsTraversal (some cbn) h fuel i = upwardsTraversal none h fuel i :=
  ⟨preorder_pruned cb t, postorder_pruned cb t,
   levelorder_ignores_callback (some cb) [t], rfl⟩

theorem fromDictForest_toDictForest (cs : List SimpleTree)
    (ih : ∀ c ∈ cs, strictCap c = true → fromDict (toDict c) = .ok c)
    (hcap : strictCapForest cs = true) :
    fromDictForest (toDictForest cs) = .ok cs := by
  induction cs with
  | nil => rfl
  | cons c cs ihl =>
      rw [strictCapForest, Bool.and_eq_true] at hcap
      obtain ⟨h1, h2⟩ := hcap
      rw [toDictForest, fromDictForest]
      rw [ih c (List.mem_cons_self ..) h1]
      dsimp only
      rw [ihl (fun x hx hcx => ih x (List.mem_cons_of_mem _ hx) hcx) h2]

/-- C6 amended: for every tree in which each node with a configured
`max_children` bound has strictly fewer children than the bound,
`from_dict(to_dict(t))` succeeds and returns a tree equal to `t` —
same identities, same shape, same child order.  (Trees containing a
node with exactly `max_children` children, which `add_child` can
produce, fail to rebuild: see the counterexample.  The embedding gives
every constructed node its own children list, which in Python requires
passing explicit fresh lists — nodes built with the defaulted
`children=[]` argument all share one list object.) -/
theorem c6_roundtrip (t : SimpleTree) (hcap : strictCap t = true) :
    fromDict (toDict t) = .ok t := by
  induction t using SimpleTree.inductionOn with
  | step i m cs ih =>
      rw [strictCap.eq_def] at hcap
      dsimp only at hcap
      rw [Bool.and_eq_true] at hcap
      obtain ⟨h1, h2⟩ := hcap
      cases m with
      | none =>
          rw [toDict, fromDict]
          rw [fromDictForest_toDictForest cs ih h2]
      | some mv =>
          have hlt : cs.length < mv := of_decide_eq_true h1
          rw [toDict, fromDict]
          rw [if_neg (show ¬ 0 ≥ mv by omega)]
          rw [fromDictForest_toDictForest cs ih h2]
          dsimp only
          rw [if_neg (show ¬ cs.length ≥ mv by omega)]

/-- Witness for `c6_roundtrip` on a small capacity-slack tree. -/
theorem c6_roundtrip_witness :
    strictCap (.mk (some 1) (some 3) [.mk (some 2) none []]) = true ∧
    fromDict (toDict (.mk (some 1) (some 3) [.mk (some 2) none []]))
      = .ok (.mk (some 1) (some 3) [.mk (some 2) none []]) :=
  ⟨by decide, c6_roundtrip (.mk (some 1) (some 3) [.mk (some 2) none []])
    (by decide)⟩

/-- C6 counterexample: a parent with `max_children = 2` that holds
exactly two children is reachable via two successful `add_child`
calls, but the corresponding tree does not round-trip:
`from_dict(to_dict(t))` raises `ValueError`, because the `children`
setter used by `_from_dict` rejects `len(children) >= max_children`. -/
theorem c6_counterexample :
    (let h0 : Heap := [⟨none, some 1, [], some 2⟩, mkNode (some 2), mkNode (some 3)]
     let h1 := (addChild h0 0 1).1
     (addChild h0 0 1).2 = none ∧
     (addChild h1 0 2).2 = none ∧
     childrenOf (addChild h1 0 2).1 0 = [1, 2] ∧
     maxChildrenOf (addChild h1 0 2).1 0 = some 2) ∧
    fromDict (toDict (.mk (some 1) (some 2)
        [.mk (some 2) none [], .mk (some 3) none []])) = .error .valueError := by
  constructor
  · decide
  · rfl
